import Mathlib

/-!
Verification of the tree data model and its pure traversal operations from
`src/streamlit_app.py` (hierarchical data visualizer).

The Python `TreeNode` class (lines 9-18) carries an opaque unique `id`
(a fresh uuid string, modelled here as a `Nat`), three text attributes
`name`, `description`, `category`, a list of five float `values`
(the sample values are exact decimals, modelled as `Rat`), an ordered
list of `children`, and a mutable `expanded : Bool` flag initialised to
`False`.  Children are a nested `List`, so every recursive traversal is
written as a mutual definition over trees and lists of trees, which keeps
all recursion structural and lets concrete computations reduce in the
kernel.

Text matching in `search_nodes` is Python's case-insensitive substring
test `q.lower() in s.lower()`; strings are lowered with `Char.toLower`
character by character (all the sample text is ASCII, where this agrees
with `str.lower`) and a substring test on `List Char` is defined
executably and proved equivalent to Mathlib's `List.IsInfix`.
-/

/-- Embedding of the `TreeNode` class (src/streamlit_app.py lines 9-18):
`id` (opaque unique identifier, assigned at creation), three text
attributes, five numeric `values`, ordered `children`, and the
`expanded` flag. -/
inductive TreeNode : Type where
  | node (id : Nat) (name description category : String) (values : List Rat)
      (expanded : Bool) (children : List TreeNode) : TreeNode

def TreeNode.id : TreeNode → Nat
  | .node i _ _ _ _ _ _ => i

def TreeNode.name : TreeNode → String
  | .node _ n _ _ _ _ _ => n

def TreeNode.description : TreeNode → String
  | .node _ _ d _ _ _ _ => d

def TreeNode.category : TreeNode → String
  | .node _ _ _ c _ _ _ => c

def TreeNode.values : TreeNode → List Rat
  | .node _ _ _ _ v _ _ => v

def TreeNode.expanded : TreeNode → Bool
  | .node _ _ _ _ _ e _ => e

def TreeNode.children : TreeNode → List TreeNode
  | .node _ _ _ _ _ _ cs => cs

/-- The `TreeNode.__init__` constructor: a fresh node starts with
`expanded = False` and `children or []`.  The uuid is passed explicitly
since it is opaque; distinct nodes get distinct values. -/
def TreeNode.make (id : Nat) (name description category : String)
    (values : List Rat) (children : List TreeNode := []) : TreeNode :=
  .node id name description category values false children

/-- The fixed sample hierarchy built by `create_sample_data`
(src/streamlit_app.py lines 21-44).  The uuids are modelled by the
distinct naturals 0-7 in creation order: Root = 0, Analytics = 1,
Reporting = 2, Sales Analytics = 3, Marketing Analytics = 4,
Monthly Reports = 5, Revenue Tracking = 6, Customer Metrics = 7. -/
def create_sample_data : TreeNode :=
  let node1_1_1 := TreeNode.make 6 "Revenue Tracking" "Track sales revenue" "Feature"
    [7.6, 9.8, 2.1, 4.3, 6.5]
  let node1_1_2 := TreeNode.make 7 "Customer Metrics" "Customer analysis" "Feature"
    [8.7, 1.9, 3.2, 5.4, 7.6]
  let node1_1 := TreeNode.make 3 "Sales Analytics" "Sales data processing" "Component"
    [4.3, 6.5, 8.7, 1.9, 3.2] [node1_1_1, node1_1_2]
  let node1_2 := TreeNode.make 4 "Marketing Analytics" "Marketing metrics" "Component"
    [5.4, 7.6, 9.8, 2.1, 4.3]
  let node2_1 := TreeNode.make 5 "Monthly Reports" "Monthly summaries" "Component"
    [6.5, 8.7, 1.9, 3.2, 5.4]
  let node1 := TreeNode.make 1 "Analytics" "Data analysis module" "Module"
    [2.1, 4.3, 6.5, 8.7, 1.9] [node1_1, node1_2]
  let node2 := TreeNode.make 2 "Reporting" "Report generation" "Module"
    [3.2, 5.4, 7.6, 9.8, 2.1] [node2_1]
  TreeNode.make 0 "Root" "Main root node" "System"
    [1.2, 3.4, 5.6, 7.8, 9.0] [node1, node2]

/-- Does the character list `n` start the character list `h`?
Auxiliary for the substring test. -/
def starts_with : List Char → List Char → Bool
  | [], _ => true
  | _ :: _, [] => false
  | a :: as, b :: bs => a == b && starts_with as bs

/-- Python's contiguous-substring test `needle in haystack` on lowered
character lists. -/
def substr_in (needle : List Char) : List Char → Bool
  | [] => starts_with needle []
  | b :: bs => starts_with needle (b :: bs) || substr_in needle bs

/-- Python `s.lower()` on the ASCII sample text: lower each character. -/
def lower (s : String) : List Char := s.toList.map Char.toLower

/-- The match condition of `search_nodes` (src/streamlit_app.py lines
52-54): the lowered query occurs in the lowered `name`, `description`
or `category`. -/
def matches_query (node : TreeNode) (query_lower : List Char) : Bool :=
  substr_in query_lower (lower node.name) ||
  substr_in query_lower (lower node.description) ||
  substr_in query_lower (lower node.category)

mutual

/-- `search_nodes` (src/streamlit_app.py lines 46-61): append the current
node when it matches, then recurse into the children in order. -/
def search_nodes : TreeNode → String → List TreeNode
  | .node i n d c v e cs, query =>
      (if matches_query (.node i n d c v e cs) (lower query) then
        [TreeNode.node i n d c v e cs] else [])
        ++ search_nodes_list cs query

/-- The `for child in node.children: results.extend(...)` loop of
`search_nodes`. -/
def search_nodes_list : List TreeNode → String → List TreeNode
  | [], _ => []
  | t :: ts, query => search_nodes t query ++ search_nodes_list ts query

end

mutual

/-- `find_node_by_id` (src/streamlit_app.py lines 159-166): return the
current node when its id matches, otherwise the first hit among the
children, otherwise `None`. -/
def find_node_by_id : TreeNode → Nat → Option TreeNode
  | .node i n d c v e cs, node_id =>
      if i = node_id then some (.node i n d c v e cs)
      else find_node_by_id_list cs node_id

/-- The `for child in node.children: ... if found: return found` loop of
`find_node_by_id`. -/
def find_node_by_id_list : List TreeNode → Nat → Option TreeNode
  | [], _ => none
  | t :: ts, node_id =>
      match find_node_by_id t node_id with
      | some found => some found
      | none => find_node_by_id_list ts node_id

end

mutual

/-- `get_all_nodes` (src/streamlit_app.py lines 168-172): the node itself
followed by the nodes of each child subtree, in order (pre-order DFS). -/
def get_all_nodes : TreeNode → List TreeNode
  | .node i n d c v e cs => .node i n d c v e cs :: get_all_nodes_list cs

/-- The `for child in node.children: nodes.extend(...)` loop of
`get_all_nodes`. -/
def get_all_nodes_list : List TreeNode → List TreeNode
  | [] => []
  | t :: ts => get_all_nodes t ++ get_all_nodes_list ts

end

mutual

/-- `count_nodes` (src/streamlit_app.py lines 212-217): one for the node
itself plus the counts of the children. -/
def count_nodes : TreeNode → Nat
  | .node _ _ _ _ _ _ cs => 1 + count_nodes_list cs

/-- The `for child in node.children: count += count_nodes(child)` loop. -/
def count_nodes_list : List TreeNode → Nat
  | [] => 0
  | t :: ts => count_nodes t + count_nodes_list ts

end

mutual

/-- `get_visible_nodes` (src/streamlit_app.py lines 239-245): the node
itself, followed by the visible nodes of each child subtree when the
node's `expanded` flag is set, nothing from the children otherwise. -/
def get_visible_nodes : TreeNode → List TreeNode
  | .node i n d c v e cs =>
      .node i n d c v e cs :: (if e then get_visible_nodes_list cs else [])

/-- The `for child in node.children: visible.extend(...)` loop of
`get_visible_nodes`, run only for expanded nodes. -/
def get_visible_nodes_list : List TreeNode → List TreeNode
  | [] => []
  | t :: ts => get_visible_nodes t ++ get_visible_nodes_list ts

end

mutual

/-- `expand_all` (src/streamlit_app.py lines 198-202) as a pure function:
the in-place `node.expanded = True` on every node of the tree becomes a
tree with every `expanded` flag set. -/
def expand_all : TreeNode → TreeNode
  | .node i n d c v _ cs => .node i n d c v true (expand_all_list cs)

/-- The `for child in node.children: expand_all(child)` loop. -/
def expand_all_list : List TreeNode → List TreeNode
  | [] => []
  | t :: ts => expand_all t :: expand_all_list ts

end

mutual

/-- `collapse_all` (src/streamlit_app.py lines 205-209) as a pure
function: every `expanded` flag cleared. -/
def collapse_all : TreeNode → TreeNode
  | .node i n d c v _ cs => .node i n d c v false (collapse_all_list cs)

/-- The `for child in node.children: collapse_all(child)` loop. -/
def collapse_all_list : List TreeNode → List TreeNode
  | [] => []
  | t :: ts => collapse_all t :: collapse_all_list ts

end

mutual

/-- The expand/collapse click handler `node.expanded = not node.expanded`
(src/streamlit_app.py lines 141-142) as a pure function keyed by id: the
flag of the node(s) carrying `node_id` is negated, all else unchanged. -/
def toggle_expanded : TreeNode → Nat → TreeNode
  | .node i n d c v e cs, node_id =>
      .node i n d c v (if i = node_id then !e else e)
        (toggle_expanded_list cs node_id)

/-- `toggle_expanded` applied across a list of sibling subtrees. -/
def toggle_expanded_list : List TreeNode → Nat → List TreeNode
  | [], _ => []
  | t :: ts, node_id => toggle_expanded t node_id :: toggle_expanded_list ts node_id

end

mutual

/-- Bridge to the spec's external expansion state `expandedIds`: apply a
state `E` (a list of node ids) to a tree by setting every node's
`expanded` flag to the membership of its id in `E`.  The code stores the
flag on the node (src/streamlit_app.py line 18), so a state `E` is
realised as the tree whose flags agree with `E`. -/
def set_expanded : TreeNode → List Nat → TreeNode
  | .node i n d c v _ cs, ids =>
      .node i n d c v (ids.contains i) (set_expanded_list cs ids)

/-- `set_expanded` applied across a list of sibling subtrees. -/
def set_expanded_list : List TreeNode → List Nat → List TreeNode
  | [], _ => []
  | t :: ts, ids => set_expanded t ids :: set_expanded_list ts ids

end

/-- Occurrence of a node in a tree: `Subnode t n` holds when `n` is `t`
itself or occurs in one of `t`'s child subtrees.  This is the reference
notion of "node of the tree" for the traversal claims. -/
inductive Subnode : TreeNode → TreeNode → Prop where
  | refl (t : TreeNode) : Subnode t t
  | child {t c n : TreeNode} (hc : c ∈ t.children) (h : Subnode c n) :
      Subnode t n

/-- Visibility of a node under the expansion flags: `VisibleIn t n` holds
when `n` is reachable from the root `t` along a chain of child steps in
which every node whose children are entered has its `expanded` flag set.
The root itself is always visible; a collapsed node on the ancestor
chain blocks everything below it. -/
inductive VisibleIn : TreeNode → TreeNode → Prop where
  | refl (t : TreeNode) : VisibleIn t t
  | child {t c n : TreeNode} (he : t.expanded = true) (hc : c ∈ t.children)
      (h : VisibleIn c n) : VisibleIn t n

theorem starts_with_iff (n h : List Char) : starts_with n h = true ↔ n <+: h := by
  induction n generalizing h with
  | nil => simp [starts_with]
  | cons a as ih =>
    cases h with
    | nil => simp [starts_with]
    | cons b bs => simp [starts_with, ih, List.cons_prefix_cons]

theorem substr_in_iff (n h : List Char) : substr_in n h = true ↔ n <:+: h := by
  induction h with
  | nil => simp [substr_in, starts_with_iff]
  | cons b bs ih =>
    simp [substr_in, starts_with_iff, ih]
    constructor
    · rintro (hp | hi)
      · exact hp.isInfix
      · exact hi.trans (List.suffix_cons b bs).isInfix
    · intro hi
      rcases List.infix_cons_iff.mp hi with hp | hi
      · exact Or.inl hp
      · exact Or.inr hi

theorem substr_in_nil (h : List Char) : substr_in [] h = true := by
  cases h <;> simp [substr_in, starts_with]

theorem lower_empty : lower "" = [] := rfl

theorem matches_query_empty (n : TreeNode) : matches_query n (lower "") = true := by
  simp [matches_query, lower_empty, substr_in_nil]

mutual

theorem count_nodes_eq_length (t : TreeNode) :
    count_nodes t = (get_all_nodes t).length := by
  match t with
  | .node i n d c v e cs =>
    rw [count_nodes, get_all_nodes]
    simp [count_nodes_list_eq_length cs]
    omega

theorem count_nodes_list_eq_length (ts : List TreeNode) :
    count_nodes_list ts = (get_all_nodes_list ts).length := by
  match ts with
  | [] => rfl
  | t :: ts =>
    rw [count_nodes_list, get_all_nodes_list]
    simp [count_nodes_eq_length t, count_nodes_list_eq_length ts]

end

theorem count_nodes_list_eq_sum (ts : List TreeNode) :
    count_nodes_list ts = (ts.map count_nodes).sum := by
  induction ts with
  | nil => rfl
  | cons t ts ih => rw [count_nodes_list, ih]; simp

theorem count_nodes_children (t : TreeNode) :
    count_nodes t = 1 + (t.children.map count_nodes).sum := by
  cases t with
  | node i n d c v e cs => rw [count_nodes, count_nodes_list_eq_sum]; rfl

theorem count_nodes_pos (t : TreeNode) : 1 ≤ count_nodes t := by
  cases t with
  | node i n d c v e cs => rw [count_nodes]; omega

theorem get_all_nodes_list_eq_flatten (ts : List TreeNode) :
    get_all_nodes_list ts = (ts.map get_all_nodes).flatten := by
  induction ts with
  | nil => rfl
  | cons t ts ih => rw [get_all_nodes_list, ih]; simp

theorem get_all_nodes_children (t : TreeNode) :
    get_all_nodes t = t :: (t.children.map get_all_nodes).flatten := by
  cases t with
  | node i n d c v e cs => rw [get_all_nodes, get_all_nodes_list_eq_flatten]; rfl

mutual

theorem mem_get_all_nodes (t n : TreeNode) :
    n ∈ get_all_nodes t ↔ Subnode t n := by
  match t with
  | .node i n' d c v e cs =>
    rw [get_all_nodes]
    simp [mem_get_all_nodes_list cs n]
    constructor
    · rintro (rfl | ⟨c', hc', hs⟩)
      · exact Subnode.refl _
      · exact Subnode.child (by simpa [TreeNode.children] using hc') hs
    · intro hs
      cases hs with
      | refl => exact Or.inl rfl
      | child hc h => exact Or.inr ⟨_, by simpa [TreeNode.children] using hc, h⟩

theorem mem_get_all_nodes_list (ts : List TreeNode) (n : TreeNode) :
    n ∈ get_all_nodes_list ts ↔ ∃ c ∈ ts, Subnode c n := by
  match ts with
  | [] => simp [get_all_nodes_list]
  | t :: ts =>
    rw [get_all_nodes_list]
    simp [List.mem_append, mem_get_all_nodes t n, mem_get_all_nodes_list ts n]

end

mutual

theorem search_nodes_eq_filter (t : TreeNode) (q : String) :
    search_nodes t q = (get_all_nodes t).filter (fun n => matches_query n (lower q)) := by
  match t with
  | .node i n d c v e cs =>
    rw [search_nodes, get_all_nodes, List.filter_cons]
    by_cases hm : matches_query (.node i n d c v e cs) (lower q) = true
    · simp [hm, search_nodes_list_eq_filter cs q]
    · simp [hm, search_nodes_list_eq_filter cs q]

theorem search_nodes_list_eq_filter (ts : List TreeNode) (q : String) :
    search_nodes_list ts q =
      (get_all_nodes_list ts).filter (fun n => matches_query n (lower q)) := by
  match ts with
  | [] => rfl
  | t :: ts =>
    rw [search_nodes_list, get_all_nodes_list, List.filter_append]
    rw [search_nodes_eq_filter t q, search_nodes_list_eq_filter ts q]

end

theorem search_nodes_empty_query (t : TreeNode) :
    search_nodes t "" = get_all_nodes t := by
  rw [search_nodes_eq_filter]
  exact List.filter_eq_self.mpr (fun n _ => matches_query_empty n)

mutual

theorem find_node_by_id_eq_find? (t : TreeNode) (i : Nat) :
    find_node_by_id t i = (get_all_nodes t).find? (fun n => n.id == i) := by
  match t with
  | .node j n d c v e cs =>
    rw [find_node_by_id, get_all_nodes, List.find?_cons]
    by_cases hj : j = i
    · simp [hj, TreeNode.id]
    · have hb : (j == i) = false := by simpa using hj
      simp [TreeNode.id, hj, hb, find_node_by_id_list_eq_find? cs i]

theorem find_node_by_id_list_eq_find? (ts : List TreeNode) (i : Nat) :
    find_node_by_id_list ts i = (get_all_nodes_list ts).find? (fun n => n.id == i) := by
  match ts with
  | [] => rfl
  | t :: ts =>
    rw [find_node_by_id_list, get_all_nodes_list, List.find?_append]
    rw [find_node_by_id_eq_find? t i, find_node_by_id_list_eq_find? ts i]
    cases (get_all_nodes t).find? (fun n => n.id == i) <;> simp

end

theorem find_node_by_id_id (t : TreeNode) (i : Nat) (n : TreeNode)
    (h : find_node_by_id t i = some n) : n.id = i := by
  rw [find_node_by_id_eq_find?] at h
  have := List.find?_some h
  simpa using this

theorem find_node_by_id_none (t : TreeNode) (i : Nat)
    (h : ∀ n ∈ get_all_nodes t, n.id ≠ i) : find_node_by_id t i = none := by
  rw [find_node_by_id_eq_find?]
  rw [List.find?_eq_none]
  intro n hn
  simpa using h n hn

theorem get_visible_nodes_head (t : TreeNode) :
    (get_visible_nodes t).head? = some t := by
  cases t with
  | node i n d c v e cs => rw [get_visible_nodes]; rfl

theorem get_visible_nodes_collapsed (t : TreeNode) (h : t.expanded = false) :
    get_visible_nodes t = [t] := by
  cases t with
  | node i n d c v e cs =>
    rw [TreeNode.expanded] at h
    rw [get_visible_nodes, h]
    rfl

mutual

theorem mem_get_visible_nodes (t n : TreeNode) :
    n ∈ get_visible_nodes t ↔ VisibleIn t n := by
  match t with
  | .node i n' d c v e cs =>
    rw [get_visible_nodes]
    cases e with
    | true =>
      simp [mem_get_visible_nodes_list cs n]
      constructor
      · rintro (rfl | ⟨c', hc', hv⟩)
        · exact VisibleIn.refl _
        · exact VisibleIn.child (by rw [TreeNode.expanded])
            (by simpa [TreeNode.children] using hc') hv
      · intro hv
        cases hv with
        | refl => exact Or.inl rfl
        | child he hc h => exact Or.inr ⟨_, by simpa [TreeNode.children] using hc, h⟩
    | false =>
      simp
      constructor
      · rintro rfl; exact VisibleIn.refl _
      · intro hv
        cases hv with
        | refl => rfl
        | child he hc h => rw [TreeNode.expanded] at he; exact absurd he (by simp)

theorem mem_get_visible_nodes_list (ts : List TreeNode) (n : TreeNode) :
    n ∈ get_visible_nodes_list ts ↔ ∃ c ∈ ts, VisibleIn c n := by
  match ts with
  | [] => simp [get_visible_nodes_list]
  | t :: ts =>
    rw [get_visible_nodes_list]
    simp [List.mem_append, mem_get_visible_nodes t n, mem_get_visible_nodes_list ts n]

end

mutual

theorem set_expanded_flag (t : TreeNode) (E : List Nat) (n : TreeNode)
    (h : n ∈ get_all_nodes (set_expanded t E)) : n.expanded = E.contains n.id := by
  match t with
  | .node i n' d c v e cs =>
    rw [set_expanded, get_all_nodes] at h
    rcases List.mem_cons.mp h with rfl | h
    · rw [TreeNode.expanded, TreeNode.id]
    · exact set_expanded_list_flag cs E n h

theorem set_expanded_list_flag (ts : List TreeNode) (E : List Nat) (n : TreeNode)
    (h : n ∈ get_all_nodes_list (set_expanded_list ts E)) :
    n.expanded = E.contains n.id := by
  match ts with
  | [] => rw [set_expanded_list, get_all_nodes_list] at h; exact absurd h (by simp)
  | t :: ts =>
    rw [set_expanded_list, get_all_nodes_list] at h
    rcases List.mem_append.mp h with h | h
    · exact set_expanded_flag t E n h
    · exact set_expanded_list_flag ts E n h

end

theorem set_expanded_nil_visible (t : TreeNode) :
    get_visible_nodes (set_expanded t []) = [set_expanded t []] := by
  apply get_visible_nodes_collapsed
  cases t with
  | node i n d c v e cs => rw [set_expanded, TreeNode.expanded]; rfl

mutual

theorem expand_all_mem_expanded (t : TreeNode) (n : TreeNode)
    (h : n ∈ get_all_nodes (expand_all t)) : n.expanded = true := by
  match t with
  | .node i n' d c v e cs =>
    rw [expand_all, get_all_nodes] at h
    rcases List.mem_cons.mp h with rfl | h
    · rw [TreeNode.expanded]
    · exact expand_all_list_mem_expanded cs n h

theorem expand_all_list_mem_expanded (ts : List TreeNode) (n : TreeNode)
    (h : n ∈ get_all_nodes_list (expand_all_list ts)) : n.expanded = true := by
  match ts with
  | [] => rw [expand_all_list, get_all_nodes_list] at h; exact absurd h (by simp)
  | t :: ts =>
    rw [expand_all_list, get_all_nodes_list] at h
    rcases List.mem_append.mp h with h | h
    · exact expand_all_mem_expanded t n h
    · exact expand_all_list_mem_expanded ts n h

end

mutual

theorem expand_all_idem (t : TreeNode) : expand_all (expand_all t) = expand_all t := by
  match t with
  | .node i n d c v e cs =>
    rw [expand_all, expand_all, expand_all_list_idem cs]

theorem expand_all_list_idem (ts : List TreeNode) :
    expand_all_list (expand_all_list ts) = expand_all_list ts := by
  match ts with
  | [] => rfl
  | t :: ts =>
    rw [expand_all_list, expand_all_list, expand_all_idem t, expand_all_list_idem ts]

end

mutual

theorem expand_all_ids (t : TreeNode) :
    (get_all_nodes (expand_all t)).map TreeNode.id = (get_all_nodes t).map TreeNode.id := by
  match t with
  | .node i n d c v e cs =>
    rw [expand_all, get_all_nodes, get_all_nodes]
    simp [TreeNode.id, expand_all_list_ids cs]

theorem expand_all_list_ids (ts : List TreeNode) :
    (get_all_nodes_list (expand_all_list ts)).map TreeNode.id =
      (get_all_nodes_list ts).map TreeNode.id := by
  match ts with
  | [] => rfl
  | t :: ts =>
    rw [expand_all_list, get_all_nodes_list, get_all_nodes_list]
    simp [expand_all_ids t, expand_all_list_ids ts]

end

mutual

theorem get_visible_expand_all (t : TreeNode) :
    get_visible_nodes (expand_all t) = get_all_nodes (expand_all t) := by
  match t with
  | .node i n d c v e cs =>
    rw [expand_all, get_visible_nodes, get_all_nodes]
    simp [get_visible_expand_all_list cs]

theorem get_visible_expand_all_list (ts : List TreeNode) :
    get_visible_nodes_list (expand_all_list ts) = get_all_nodes_list (expand_all_list ts) := by
  match ts with
  | [] => rfl
  | t :: ts =>
    rw [expand_all_list, get_visible_nodes_list, get_all_nodes_list]
    rw [get_visible_expand_all t, get_visible_expand_all_list ts]

end

mutual

theorem collapse_all_idem (t : TreeNode) :
    collapse_all (collapse_all t) = collapse_all t := by
  match t with
  | .node i n d c v e cs =>
    rw [collapse_all, collapse_all, collapse_all_list_idem cs]

theorem collapse_all_list_idem (ts : List TreeNode) :
    collapse_all_list (collapse_all_list ts) = collapse_all_list ts := by
  match ts with
  | [] => rfl
  | t :: ts =>
    rw [collapse_all_list, collapse_all_list, collapse_all_idem t, collapse_all_list_idem ts]

end

mutual

theorem collapse_all_mem_collapsed (t : TreeNode) (n : TreeNode)
    (h : n ∈ get_all_nodes (collapse_all t)) : n.expanded = false := by
  match t with
  | .node i n' d c v e cs =>
    rw [collapse_all, get_all_nodes] at h
    rcases List.mem_cons.mp h with rfl | h
    · rw [TreeNode.expanded]
    · exact collapse_all_list_mem_collapsed cs n h

theorem collapse_all_list_mem_collapsed (ts : List TreeNode) (n : TreeNode)
    (h : n ∈ get_all_nodes_list (collapse_all_list ts)) : n.expanded = false := by
  match ts with
  | [] => rw [collapse_all_list, get_all_nodes_list] at h; exact absurd h (by simp)
  | t :: ts =>
    rw [collapse_all_list, get_all_nodes_list] at h
    rcases List.mem_append.mp h with h | h
    · exact collapse_all_mem_collapsed t n h
    · exact collapse_all_list_mem_collapsed ts n h

end

mutual

theorem toggle_expanded_invol (t : TreeNode) (i : Nat) :
    toggle_expanded (toggle_expanded t i) i = t := by
  match t with
  | .node j n d c v e cs =>
    rw [toggle_expanded, toggle_expanded, toggle_expanded_list_invol cs i]
    by_cases hj : j = i
    · simp [hj]
    · simp [hj]

theorem toggle_expanded_list_invol (ts : List TreeNode) (i : Nat) :
    toggle_expanded_list (toggle_expanded_list ts i) i = ts := by
  match ts with
  | [] => rfl
  | t :: ts =>
    rw [toggle_expanded_list, toggle_expanded_list, toggle_expanded_invol t i,
      toggle_expanded_list_invol ts i]

end

/-- C1: for every tree and expansion state, the visible-nodes computation
always includes the root (it is the head of the result); a node is in
the result exactly when it is reachable from the root through expanded
nodes only, so a node's children are entered only when its flag is set
and everything below a collapsed node is absent; realising an external
state `E` on the tree sets each node's flag to the membership of its id
in `E`; and under the empty state the result is exactly the one-element
list holding the root. -/
theorem C1_visible_nodes :
    (∀ t : TreeNode, (get_visible_nodes t).head? = some t) ∧
    (∀ t n : TreeNode, n ∈ get_visible_nodes t ↔ VisibleIn t n) ∧
    (∀ (t : TreeNode) (E : List Nat), ∀ n ∈ get_all_nodes (set_expanded t E),
      n.expanded = E.contains n.id) ∧
    (∀ t : TreeNode, get_visible_nodes (set_expanded t []) = [set_expanded t []]) :=
  ⟨get_visible_nodes_head, mem_get_visible_nodes,
   fun t E n hn => set_expanded_flag t E n hn, set_expanded_nil_visible⟩

/-- C1 witness: the instance on the sample tree with Root and Analytics
expanded, and with the empty state. -/
theorem C1_visible_nodes_witness :
    (get_visible_nodes (set_expanded create_sample_data [0, 1])).head? =
      some (set_expanded create_sample_data [0, 1]) ∧
    (set_expanded create_sample_data [0, 1]).expanded =
      ([0, 1] : List Nat).contains (set_expanded create_sample_data [0, 1]).id ∧
    get_visible_nodes (set_expanded create_sample_data []) =
      [set_expanded create_sample_data []] :=
  ⟨C1_visible_nodes.1 _,
   C1_visible_nodes.2.2.1 create_sample_data [0, 1] _
     (by rw [get_all_nodes_children]; exact List.mem_cons_self _ _),
   C1_visible_nodes.2.2.2 _⟩

/-- C2: for every tree and non-empty query, the search result is exactly
the pre-order enumeration filtered by the case-insensitive three-field
match; hence every returned node is a node of the tree whose lowered
name, description or category contains the lowered query as a contiguous
substring; the result is a sublist of the pre-order enumeration, so it
is in pre-order and lists each node at most once even when several
fields match; and on the sample tree the query "revenue" returns exactly
the single node named "Revenue Tracking". -/
theorem C2_search_nodes :
    (∀ (t : TreeNode) (q : String), q ≠ "" →
      search_nodes t q = (get_all_nodes t).filter (fun n => matches_query n (lower q)) ∧
      (∀ n ∈ search_nodes t q, n ∈ get_all_nodes t ∧
        (lower q <:+: lower n.name ∨ lower q <:+: lower n.description ∨
         lower q <:+: lower n.category)) ∧
      (search_nodes t q).Sublist (get_all_nodes t)) ∧
    (search_nodes create_sample_data "revenue").map TreeNode.name =
      ["Revenue Tracking"] := by
  constructor
  · intro t q _
    refine ⟨search_nodes_eq_filter t q, ?_, ?_⟩
    · intro n hn
      rw [search_nodes_eq_filter] at hn
      have hmem := List.mem_of_mem_filter hn
      have hmatch := List.of_mem_filter hn
      refine ⟨hmem, ?_⟩
      simp only [matches_query, Bool.or_eq_true, substr_in_iff] at hmatch
      tauto
    · rw [search_nodes_eq_filter]
      exact List.filter_sublist _
  · decide

/-- C2 witness: the instance on the sample tree with the query
"revenue". -/
theorem C2_search_nodes_witness :
    ("revenue" : String) ≠ "" ∧
    (search_nodes create_sample_data "revenue").Sublist
      (get_all_nodes create_sample_data) :=
  ⟨by decide, (C2_search_nodes.1 create_sample_data "revenue" (by decide)).2.2⟩

/-- C3: the node count satisfies the recurrence one plus the sum over the
children, is at least one, is exactly one on a childless node, and is 8
on the sample tree. -/
theorem C3_count_nodes :
    (∀ t : TreeNode, count_nodes t = 1 + (t.children.map count_nodes).sum) ∧
    (∀ t : TreeNode, 1 ≤ count_nodes t) ∧
    (∀ t : TreeNode, t.children = [] → count_nodes t = 1) ∧
    count_nodes create_sample_data = 8 := by
  refine ⟨count_nodes_children, count_nodes_pos, ?_, by decide⟩
  intro t h
  rw [count_nodes_children, h]
  rfl

/-- C3 witness: the childless-node case on a concrete leaf. -/
theorem C3_count_nodes_witness :
    (TreeNode.node 9 "Leaf" "leaf node" "Test" [] false []).children = [] ∧
    count_nodes (TreeNode.node 9 "Leaf" "leaf node" "Test" [] false []) = 1 :=
  ⟨rfl, C3_count_nodes.2.2.1 (TreeNode.node 9 "Leaf" "leaf node" "Test" [] false []) rfl⟩

/-- C4: id lookup equals the first pre-order node carrying the id (via
`List.find?` on the pre-order enumeration); a successful lookup returns
a node whose id is exactly the target, and when no node carries the id
the lookup returns `none` rather than failing. -/
theorem C4_find_node_by_id :
    (∀ (t : TreeNode) (i : Nat),
      find_node_by_id t i = (get_all_nodes t).find? (fun n => n.id == i)) ∧
    (∀ (t : TreeNode) (i : Nat) (n : TreeNode),
      find_node_by_id t i = some n → n.id = i) ∧
    (∀ (t : TreeNode) (i : Nat), (∀ n ∈ get_all_nodes t, n.id ≠ i) →
      find_node_by_id t i = none) :=
  ⟨find_node_by_id_eq_find?, find_node_by_id_id, find_node_by_id_none⟩

/-- C4 witness: on the sample tree, looking up the root id returns a node
with that id, and looking up an absent id returns `none`. -/
theorem C4_find_node_by_id_witness :
    create_sample_data.id = 0 ∧ find_node_by_id create_sample_data 99 = none :=
  ⟨C4_find_node_by_id.2.1 create_sample_data 0 create_sample_data rfl,
   C4_find_node_by_id.2.2 create_sample_data 99 (by decide)⟩

/-- C5 counterexample: with Root (id 0) and Analytics (id 1) expanded on
the sample tree, the visible nodes are NOT the claimed four-element
sequence — "Reporting" is a child of the expanded Root and is therefore
visible as well. -/
theorem C5_visible_sample_counterexample :
    (get_visible_nodes (set_expanded create_sample_data [0, 1])).map TreeNode.name ≠
      ["Root", "Analytics", "Sales Analytics", "Marketing Analytics"] := by
  decide

/-- C5 amended: with exactly Root (id 0) and Analytics (id 1) expanded,
the visible nodes of the sample tree are exactly Root, Analytics,
Sales Analytics, Marketing Analytics and Reporting, in this order;
the children of Sales Analytics (Revenue Tracking, Customer Metrics)
are not included since its id is not in the expanded set. -/
theorem C5_visible_sample_amended :
    (get_visible_nodes (set_expanded create_sample_data [0, 1])).map TreeNode.name =
      ["Root", "Analytics", "Sales Analytics", "Marketing Analytics", "Reporting"] ∧
    "Revenue Tracking" ∉
      (get_visible_nodes (set_expanded create_sample_data [0, 1])).map TreeNode.name ∧
    "Customer Metrics" ∉
      (get_visible_nodes (set_expanded create_sample_data [0, 1])).map TreeNode.name := by
  refine ⟨by decide, by decide, by decide⟩

/-- C6 counterexample: after expand-all on the sample tree it is not the
case that only nodes with children carry the expanded flag — some
expanded node is a leaf (in fact all four leaves are expanded). -/
theorem C6_expand_all_counterexample :
    ¬ (∀ n ∈ get_all_nodes (expand_all create_sample_data),
        n.expanded = true → n.children.isEmpty = false) := by
  decide

/-- C6 amended: expand-all sets the expanded flag of every node of the
tree — internal nodes and leaves alike — and is idempotent. -/
theorem C6_expand_all_amended :
    (∀ (t : TreeNode), ∀ n ∈ get_all_nodes (expand_all t), n.expanded = true) ∧
    (∀ t : TreeNode, expand_all (expand_all t) = expand_all t) :=
  ⟨fun t n hn => expand_all_mem_expanded t n hn, expand_all_idem⟩

/-- C6 witness: the root of the expanded sample tree carries the flag,
and expand-all is idempotent there. -/
theorem C6_expand_all_witness :
    (expand_all create_sample_data).expanded = true ∧
    expand_all (expand_all create_sample_data) = expand_all create_sample_data :=
  ⟨C6_expand_all_amended.1 create_sample_data (expand_all create_sample_data)
     (by rw [get_all_nodes_children]; exact List.mem_cons_self _ _),
   C6_expand_all_amended.2 create_sample_data⟩

/-- C7 counterexample: on the sample tree the empty query does not return
the empty sequence — it returns all 8 nodes, because the empty string is
a substring of every field. -/
theorem C7_search_empty_counterexample :
    (search_nodes create_sample_data "").map TreeNode.name ≠ [] ∧
    (search_nodes create_sample_data "").length = 8 := by
  refine ⟨by decide, by decide⟩

/-- C7 amended: for every tree, searching with the empty query returns
every node of the tree in pre-order (the empty string matches each of
the three fields), and the call returns normally — a total function,
never an error. -/
theorem C7_search_empty_amended (t : TreeNode) :
    search_nodes t "" = get_all_nodes t :=
  search_nodes_empty_query t

/-- C8: visible nodes after expand-all are exactly the pre-order
enumeration of the expanded tree; that enumeration carries the same ids
in the same order as the enumeration of the original tree, and has as
many entries as the tree has nodes; when the tree's ids are distinct the
result has no duplicate entries, so every node appears exactly once. -/
theorem C8_visible_expand_all :
    (∀ t : TreeNode,
      get_visible_nodes (expand_all t) = get_all_nodes (expand_all t)) ∧
    (∀ t : TreeNode,
      (get_visible_nodes (expand_all t)).map TreeNode.id =
        (get_all_nodes t).map TreeNode.id) ∧
    (∀ t : TreeNode, (get_visible_nodes (expand_all t)).length = count_nodes t) ∧
    (∀ t : TreeNode, ((get_all_nodes t).map TreeNode.id).Nodup →
      (get_visible_nodes (expand_all t)).Nodup) := by
  have hids : ∀ t : TreeNode,
      (get_visible_nodes (expand_all t)).map TreeNode.id =
        (get_all_nodes t).map TreeNode.id := by
    intro t
    rw [get_visible_expand_all, expand_all_ids]
  refine ⟨get_visible_expand_all, hids, ?_, ?_⟩
  · intro t
    have h := congrArg List.length (hids t)
    simpa [count_nodes_eq_length] using h
  · intro t h
    exact List.Nodup.of_map TreeNode.id ((hids t) ▸ h)

/-- C8 witness: the sample tree has distinct ids, so its fully expanded
visible-node list has no duplicates. -/
theorem C8_visible_expand_all_witness :
    ((get_all_nodes create_sample_data).map TreeNode.id).Nodup ∧
    (get_visible_nodes (expand_all create_sample_data)).Nodup :=
  ⟨by decide, C8_visible_expand_all.2.2.2 create_sample_data (by decide)⟩

/-- C9: toggling the expanded flag of an id present in the tree twice
restores the original tree (an involution), collapse-all is idempotent,
and after collapse-all no node of the tree carries the expanded flag
(the expanded set is empty). -/
theorem C9_toggle_collapse :
    (∀ (t : TreeNode) (i : Nat), i ∈ (get_all_nodes t).map TreeNode.id →
      toggle_expanded (toggle_expanded t i) i = t) ∧
    (∀ t : TreeNode, collapse_all (collapse_all t) = collapse_all t) ∧
    (∀ (t : TreeNode), ∀ n ∈ get_all_nodes (collapse_all t), n.expanded = false) :=
  ⟨fun t i _ => toggle_expanded_invol t i, collapse_all_idem,
   fun t n hn => collapse_all_mem_collapsed t n hn⟩

/-- C9 witness: the instance at the sample tree with the root id. -/
theorem C9_toggle_collapse_witness :
    0 ∈ (get_all_nodes create_sample_data).map TreeNode.id ∧
    toggle_expanded (toggle_expanded create_sample_data 0) 0 = create_sample_data ∧
    (collapse_all create_sample_data).expanded = false :=
  ⟨by decide,
   C9_toggle_collapse.1 create_sample_data 0 (by decide),
   C9_toggle_collapse.2.2 create_sample_data (collapse_all create_sample_data)
     (by rw [get_all_nodes_children]; exact List.mem_cons_self _ _)⟩

/-- C10: the recursive node counter agrees with the length of the
collect-all-nodes traversal; that traversal contains a node exactly when
it occurs in the tree, is the pre-order walk (the node itself followed
by the flattened walks of the children in stored order), and contains no
duplicates when the tree's ids are distinct — the two functions are the
count view and the enumeration view of the same walk. -/
theorem C10_count_enumeration :
    (∀ t : TreeNode, count_nodes t = (get_all_nodes t).length) ∧
    (∀ t n : TreeNode, n ∈ get_all_nodes t ↔ Subnode t n) ∧
    (∀ t : TreeNode, get_all_nodes t = t :: (t.children.map get_all_nodes).flatten) ∧
    (∀ t : TreeNode, ((get_all_nodes t).map TreeNode.id).Nodup →
      (get_all_nodes t).Nodup) :=
  ⟨count_nodes_eq_length, mem_get_all_nodes, get_all_nodes_children,
   fun _ h => List.Nodup.of_map TreeNode.id h⟩

/-- C10 witness: the sample tree has distinct ids, hence a duplicate-free
enumeration. -/
theorem C10_count_enumeration_witness :
    ((get_all_nodes create_sample_data).map TreeNode.id).Nodup ∧
    (get_all_nodes create_sample_data).Nodup :=
  ⟨by decide, C10_count_enumeration.2.2.2 create_sample_data (by decide)⟩
